import Mathlib

/-
  Verification of pyband's chord-voicing core (src/pyband/chords.py).

  Shallow embedding conventions:
  * A music21 `Pitch` is modelled as its MIDI-style integer value (spec section 3:
    "Pitch: an integer MIDI-style value"); `Pitch.transpose` by a named interval
    becomes integer addition of the interval's semitone count, and `Pitch`
    comparison (used by the heap's tuple ordering) is integer comparison of the
    MIDI values.
  * A music21 `Chord` is modelled as the ordered list of its pitches (spec
    section 3: "an ordered collection of Pitches (duplicates by pitch value are
    possible but not deduplicated)").
  * Python floats arising from `sum(...) / len(...)` are modelled as exact
    rationals; for the integer sums and small list lengths that occur here the
    float comparisons against 12.0 and the `min(..., key=...)` comparisons agree
    with the exact rational ones.
  * The `while` loops of `move_chord` / `move_pitch` are modelled with an
    explicit fuel argument; the fuel chosen is proved sufficient
    (`moveChordFuel_stable`, `move_chord_band`, `move_pitch_band`), so the
    total function agrees with the loop's fixed point.
  * The `heapq` heap of `(weight, pitch)` tuples is modelled by the list of
    pushed pairs (`ChordType.candidates`, in push order) together with its
    lexicographic sort (`sortedCandidates`): `heappop` returns the remaining
    minimum, so the sequence of popped elements is the sorted prefix
    (`discardedCandidates`) and the surviving multiset is the sorted suffix
    (`trimCandidates`).  The surviving pitches are sorted ascending immediately
    afterwards (`sortDiatonicAscending`), so the heap's internal array order is
    irrelevant to the final chord.
-/

namespace Pyband

/-- MIDI-style integer pitch value (spec: "integer MIDI-style value"). -/
abbrev Pitch := ℤ

/-- ThirdQuality enum from chords.py. -/
inductive ThirdQuality
  | MAJOR
  | MINOR
  | SUS4
  | SUS2
deriving DecidableEq

/-- ThirdQuality.interval: "M3" / "m3" / "P4" / "M2", resolved to semitones. -/
def ThirdQuality.interval : ThirdQuality → ℤ
  | .MAJOR => 4
  | .MINOR => 3
  | .SUS4 => 5
  | .SUS2 => 2

/-- FifthQuality enum from chords.py. -/
inductive FifthQuality
  | PERFECT
  | DIMINISHED
  | AUGMENTED
deriving DecidableEq

/-- FifthQuality.interval: "P5" / "d5" / "A5", resolved to semitones. -/
def FifthQuality.interval : FifthQuality → ℤ
  | .PERFECT => 7
  | .DIMINISHED => 6
  | .AUGMENTED => 8

/-- UpperQuality enum from chords.py.  MINOR_SEVENTH = "b7" is a Python enum
alias of DOMINANT_SEVENTH (same value), so the type has four members. -/
inductive UpperQuality
  | SIXTH
  | DOMINANT_SEVENTH
  | MAJOR_SEVENTH
  | DIMINISHED_SEVENTH
deriving DecidableEq

/-- Alias member: MINOR_SEVENTH = "b7" coincides with DOMINANT_SEVENTH. -/
def UpperQuality.MINOR_SEVENTH : UpperQuality := UpperQuality.DOMINANT_SEVENTH

/-- UpperQuality.interval: "M6" / "m7" / "M7" / "dd7", resolved to semitones
(music21 reads "dd7" as a doubly diminished seventh, 8 semitones). -/
def UpperQuality.interval : UpperQuality → ℤ
  | .SIXTH => 9
  | .DOMINANT_SEVENTH => 10
  | .MAJOR_SEVENTH => 11
  | .DIMINISHED_SEVENTH => 8

/-- Harmony enum from chords.py. -/
inductive Harmony
  | MINOR_NINTH
  | SHARP_NINTH
  | MAJOR_NINTH
  | SHARP_ELEVENTH
  | ELEVENTH
  | MINOR_THIRTEENTH
  | MAJOR_THIRTEENTH
deriving DecidableEq

/-- Harmony.interval: "m9" / "A9" / "M9" / "A11" / "P11" / "m13" / "M13",
resolved to semitones. -/
def Harmony.interval : Harmony → ℤ
  | .MINOR_NINTH => 13
  | .SHARP_NINTH => 15
  | .MAJOR_NINTH => 14
  | .SHARP_ELEVENTH => 18
  | .ELEVENTH => 17
  | .MINOR_THIRTEENTH => 20
  | .MAJOR_THIRTEENTH => 21

/-- pitch_center from chords.py: mean MIDI value of the chord's pitches. -/
def pitch_center (chord : List Pitch) : ℚ :=
  ((chord.sum : ℤ) : ℚ) / (chord.length : ℚ)

/-- Sum of signed distances of the chord's pitches from a reference pitch
(the numerator shared by chord_mad and chord_mean_distance). -/
def sumDist (chord : List Pitch) (pitch : Pitch) : ℤ :=
  (chord.map (fun p => p - pitch)).sum

/-- chord_mad from chords.py: mean absolute deviation of the chord's MIDI
notes from the given pitch. -/
def chord_mad (chord : List Pitch) (pitch : Pitch) : ℚ :=
  (((chord.map (fun p => |p - pitch|)).sum : ℤ) : ℚ) / (chord.length : ℚ)

/-- chord_mean_distance from chords.py: signed mean distance from the pitch. -/
def chord_mean_distance (chord : List Pitch) (pitch : Pitch) : ℚ :=
  ((sumDist chord pitch : ℤ) : ℚ) / (chord.length : ℚ)

/-- One iteration of move_chord's while-loop body: transpose the whole chord
an octave toward the anchor. -/
def moveChordStep (chord : List Pitch) (pitch : Pitch) : List Pitch :=
  if chord_mean_distance chord pitch < 0 then chord.map (fun p => p + 12)
  else chord.map (fun p => p - 12)

/-- move_chord's while-loop with explicit fuel: while the absolute signed mean
distance exceeds 12, transpose by an octave toward the anchor. -/
def moveChordFuel : ℕ → List Pitch → Pitch → List Pitch
  | 0, chord, _ => chord
  | n + 1, chord, pitch =>
    if 12 < |chord_mean_distance chord pitch| then
      moveChordFuel n (moveChordStep chord pitch) pitch
    else chord

/-- move_chord from chords.py.  The fuel |sumDist| is sufficient for the loop
to reach its fixed point (see move_chord_band and moveChordFuel_stable). -/
def move_chord (chord : List Pitch) (pitch : Pitch) : List Pitch :=
  moveChordFuel (sumDist chord pitch).natAbs chord pitch

/-- move_pitch's while-loop with explicit fuel: while the pitch is more than 6
semitones from the reference, transpose it by an octave toward the reference. -/
def movePitchFuel : ℕ → Pitch → Pitch → Pitch
  | 0, note, _ => note
  | n + 1, note, pitch =>
    if 6 < |note - pitch| then
      if note - pitch < 0 then movePitchFuel n (note + 12) pitch
      else movePitchFuel n (note - 12) pitch
    else note

/-- move_pitch from chords.py, with fuel |note - pitch| proved sufficient
(see move_pitch_band). -/
def move_pitch (note : Pitch) (pitch : Pitch) : Pitch :=
  movePitchFuel (note - pitch).natAbs note pitch

/-- One iteration of all_inversions' loop body: `last = pitches.pop()`
(deque pop is from the right, i.e. the last element), `last.transpose(-12)`,
`pitches.appendleft(last)`. -/
def invStep (c : List Pitch) : List Pitch :=
  match c.getLast? with
  | none => []
  | some last => (last - 12) :: c.dropLast

/-- The loop of all_inversions: n iterations, recording the deque's contents
after each iteration (`out.append(Chord(pitches))` runs after the rotation). -/
def allInversionsAux (pitches : List Pitch) : ℕ → List (List Pitch)
  | 0 => []
  | n + 1 => invStep pitches :: allInversionsAux (invStep pitches) n

/-- all_inversions from chords.py: one rotation per pitch of the chord. -/
def all_inversions (chord : List Pitch) : List (List Pitch) :=
  allInversionsAux chord chord.length

/-- Modelled from the spec: music21's `Chord.closedPosition` is an external
collaborator whose code is not part of this repository.  Spec section 4.3 step
6: "reorder/transpose pitches by octave so consecutive pitches (by ascending
pitch value) are each within one octave of the previous, yielding the most
pitch-compact ordering while preserving each pitch's pitch-class identity".
Each pitch is dropped by octaves into the octave above the bass (the lowest
pitch) and the result is sorted ascending; per spec section 3, duplicates are
not removed. -/
def closedPosition : List Pitch → List Pitch
  | [] => []
  | p :: ps =>
    List.insertionSort (· ≤ ·)
      ((p :: ps).map (fun q => ps.foldl min p + (q - ps.foldl min p) % 12))

/-- CPython's `min(iterable, key=f)` on a nonempty iterable `x :: xs`: scan
left to right, replacing the current best only on a strictly smaller key, so
the first element attaining the minimal key wins. -/
def pyMin {α : Type} (f : α → ℚ) (x : α) (xs : List α) : α :=
  xs.foldl (fun b c => if f c < f b then c else b) x

/-- Lexicographic order on the heap's `(weight, pitch)` tuples, exactly
Python's tuple comparison: first components compared first, ties broken by the
second (pitch) component. -/
def keyLE (a b : ℤ × ℤ) : Prop :=
  a.1 < b.1 ∨ (a.1 = b.1 ∧ a.2 ≤ b.2)

instance : DecidableRel keyLE := fun a b =>
  inferInstanceAs (Decidable (a.1 < b.1 ∨ (a.1 = b.1 ∧ a.2 ≤ b.2)))

instance : IsTotal (ℤ × ℤ) keyLE :=
  ⟨by intro a b; unfold keyLE; omega⟩

instance : IsTrans (ℤ × ℤ) keyLE :=
  ⟨by intro a b c; unfold keyLE; omega⟩

/-- The heap's elements in ascending heappop order. -/
def sortedCandidates (l : List (ℤ × ℤ)) : List (ℤ × ℤ) :=
  List.insertionSort keyLE l

/-- The candidates discarded by `while len(chord_heap) > max_notes: heappop(...)`:
the `len - max_notes` smallest (weight, pitch) tuples, in pop order. -/
def discardedCandidates (l : List (ℤ × ℤ)) (max_notes : ℤ) : List (ℤ × ℤ) :=
  (sortedCandidates l).take (l.length - max_notes.toNat)

/-- The candidates surviving the trimming loop. -/
def trimCandidates (l : List (ℤ × ℤ)) (max_notes : ℤ) : List (ℤ × ℤ) :=
  (sortedCandidates l).drop (l.length - max_notes.toNat)

/-- ChordType from chords.py, with the property names of the Python class. -/
structure ChordType where
  third_quality : ThirdQuality
  fifth_quality : FifthQuality
  upper_quality : Option UpperQuality
  harmonies : List Harmony

/-- with_harmonies: returns a new descriptor with the union of the extension
sets (the Python frozenset union, modelled as append-then-dedup in insertion
order; iteration order of the set is irrelevant to every result proved here). -/
def ChordType.with_harmonies (self : ChordType) (hs : List Harmony) : ChordType :=
  { self with harmonies := (self.harmonies ++ hs).dedup }

/-- with_upper_quality: returns a new descriptor with the upper quality replaced. -/
def ChordType.with_upper_quality (self : ChordType) (u : UpperQuality) : ChordType :=
  { self with upper_quality := some u }

def ChordType.add_dom7 (self : ChordType) : ChordType :=
  self.with_upper_quality UpperQuality.DOMINANT_SEVENTH

def ChordType.add_maj7 (self : ChordType) : ChordType :=
  self.with_upper_quality UpperQuality.MAJOR_SEVENTH

def ChordType.add_min7 (self : ChordType) : ChordType :=
  self.add_dom7

def ChordType.add_dim7 (self : ChordType) : ChordType :=
  self.with_upper_quality UpperQuality.DIMINISHED_SEVENTH

def ChordType.add_maj9 (self : ChordType) : ChordType :=
  self.with_harmonies [Harmony.MAJOR_NINTH]

def ChordType.add_maj13 (self : ChordType) : ChordType :=
  self.with_harmonies [Harmony.MAJOR_THIRTEENTH]

/-- The heap contents of generate_closed_chord in push order:
`(9, third)`, `(7, harmony)` for each harmony, `(1, fifth)`, `(3, root)` when
include_root, `(9, upper tone)` when an upper quality is present. -/
def ChordType.candidates (self : ChordType) (root_note : Pitch)
    (include_root : Bool) : List (ℤ × Pitch) :=
  [((9 : ℤ), root_note + self.third_quality.interval)]
    ++ self.harmonies.map (fun harm => ((7 : ℤ), root_note + harm.interval))
    ++ [((1 : ℤ), root_note + self.fifth_quality.interval)]
    ++ (if include_root then [((3 : ℤ), root_note)] else [])
    ++ (match self.upper_quality with
        | some u => [((9 : ℤ), root_note + u.interval)]
        | none => [])

/-- chord_base of generate_closed_chord: the pitches surviving the trimming
loop, sorted ascending (`sortDiatonicAscending`). -/
def ChordType.chord_base (self : ChordType) (root_note : Pitch)
    (max_notes : ℤ) (include_root : Bool) : List Pitch :=
  List.insertionSort (· ≤ ·)
    ((trimCandidates (self.candidates root_note include_root) max_notes).map Prod.snd)

/-- The normalized inversion list of generate_closed_chord:
`inversions = all_inversions(closedPosition(move_chord(chord_base, anchor)))`
then `inversions = [move_chord(c, anchor) for c in inversions]`. -/
def ChordType.inversionsOf (self : ChordType) (root_note anchor_note : Pitch)
    (max_notes : ℤ) (include_root : Bool) : List (List Pitch) :=
  (all_inversions (closedPosition
      (move_chord (self.chord_base root_note max_notes include_root) anchor_note))).map
    (fun c => move_chord c anchor_note)

/-- generate_closed_chord from chords.py, for already-resolved pitch values
(textual pitch parsing is the Pitch collaborator's job, spec section 4.3).
Raises (models as `Except.error`) for `max_notes < 2`; the second error branch
mirrors Python's `min` on an empty sequence and is unreachable for
`max_notes >= 2`. -/
def ChordType.generate_closed_chord (self : ChordType) (root_note : Pitch)
    (anchor_note : Pitch) (max_notes : ℤ) (bass_note : Option Pitch)
    (include_root : Bool) : Except String (List Pitch) :=
  if max_notes < 2 then
    Except.error "Not really a chord with only one or no notes."
  else
    match self.inversionsOf root_note anchor_note max_notes include_root with
    | [] => Except.error "min arg is an empty sequence"
    | x :: xs =>
      let best_option := pyMin (fun c => chord_mad c anchor_note) x xs
      match bass_note with
      | none => Except.ok best_option
      | some b =>
        Except.ok (List.insertionSort (· ≤ ·)
          (move_pitch b (anchor_note - 12) :: best_option))

instance : DecidableEq (Except String (List Pitch)) := fun a b =>
  match a, b with
  | .ok x, .ok y => decidable_of_iff (x = y) (by simp)
  | .error x, .error y => decidable_of_iff (x = y) (by simp)
  | .ok _, .error _ => isFalse (by simp)
  | .error _, .ok _ => isFalse (by simp)

/-- MAJOR = ChordType(ThirdQuality.MAJOR). -/
def MAJOR : ChordType :=
  ⟨ThirdQuality.MAJOR, FifthQuality.PERFECT, none, []⟩

/-- MINOR = ChordType(ThirdQuality.MINOR). -/
def MINOR : ChordType :=
  ⟨ThirdQuality.MINOR, FifthQuality.PERFECT, none, []⟩

/-- DIMINISHED = ChordType(ThirdQuality.MINOR, FifthQuality.DIMINISHED). -/
def DIMINISHED : ChordType :=
  ⟨ThirdQuality.MINOR, FifthQuality.DIMINISHED, none, []⟩

/-- SUS2 = ChordType(ThirdQuality.SUS2). -/
def SUS2 : ChordType :=
  ⟨ThirdQuality.SUS2, FifthQuality.PERFECT, none, []⟩

/-- SUS4 = ChordType(ThirdQuality.SUS4). -/
def SUS4 : ChordType :=
  ⟨ThirdQuality.SUS4, FifthQuality.PERFECT, none, []⟩

def MAJOR_SEVENTH : ChordType := MAJOR.add_maj7

def MINOR_SEVENTH : ChordType := MINOR.add_min7

def DIMINISHED_SEVENTH : ChordType := DIMINISHED.add_dim7

def DOMINANT_SEVENTH : ChordType := MAJOR.add_dom7

def SUS4_SEVENTH : ChordType := SUS4.add_dom7

/-! Lemmas about `pyMin`, the model of CPython's `min(iterable, key=f)`. -/

theorem pyMin_cons {α : Type} (f : α → ℚ) (x c : α) (cs : List α) :
    pyMin f x (c :: cs) = pyMin f (if f c < f x then c else x) cs := rfl

theorem pyMin_mem {α : Type} (f : α → ℚ) (x : α) (xs : List α) :
    pyMin f x xs ∈ x :: xs := by
  induction xs generalizing x with
  | nil => simp [pyMin]
  | cons c cs ih =>
    rw [pyMin_cons]
    by_cases h : f c < f x
    · rw [if_pos h]
      have h2 := ih c
      simp only [List.mem_cons] at h2 ⊢
      tauto
    · rw [if_neg h]
      have h2 := ih x
      simp only [List.mem_cons] at h2 ⊢
      tauto

theorem pyMin_le {α : Type} (f : α → ℚ) (x : α) (xs : List α) :
    ∀ c ∈ x :: xs, f (pyMin f x xs) ≤ f c := by
  induction xs generalizing x with
  | nil =>
    intro c hc
    simp only [List.mem_cons, List.not_mem_nil, or_false] at hc
    subst hc
    simp [pyMin]
  | cons c cs ih =>
    intro d hd
    rw [pyMin_cons]
    by_cases h : f c < f x
    · rw [if_pos h]
      rcases List.mem_cons.mp hd with h1 | hd2
      · rw [h1]
        exact le_of_lt (lt_of_le_of_lt (ih c c (List.mem_cons_self c cs)) h)
      · rcases List.mem_cons.mp hd2 with h1 | h1
        · rw [h1]; exact ih c c (List.mem_cons_self c cs)
        · exact ih c d (List.mem_cons_of_mem c h1)
    · rw [if_neg h]
      rcases List.mem_cons.mp hd with h1 | hd2
      · rw [h1]; exact ih x x (List.mem_cons_self x cs)
      · rcases List.mem_cons.mp hd2 with h1 | h1
        · rw [h1]
          exact le_trans (ih x x (List.mem_cons_self x cs)) (not_lt.mp h)
        · exact ih x d (List.mem_cons_of_mem x h1)

theorem pyMin_first {α : Type} (f : α → ℚ) (x : α) (xs : List α) :
    ∃ i : ℕ, (x :: xs)[i]? = some (pyMin f x xs) ∧
      ∀ j : ℕ, j < i → ∀ c, (x :: xs)[j]? = some c → f (pyMin f x xs) < f c := by
  induction xs generalizing x with
  | nil =>
    refine ⟨0, by simp [pyMin], ?_⟩
    intro j hj c hc
    omega
  | cons c cs ih =>
    rw [pyMin_cons]
    by_cases h : f c < f x
    · rw [if_pos h]
      obtain ⟨i, hi, hj⟩ := ih c
      refine ⟨i + 1, by simpa using hi, ?_⟩
      intro j hlt d hd
      rcases j with _ | j'
      · have hdx : d = x := by
          simp only [List.getElem?_cons_zero, Option.some.injEq] at hd
          exact hd.symm
        rw [hdx]
        exact lt_of_le_of_lt (pyMin_le f c cs c (List.mem_cons_self c cs)) h
      · exact hj j' (by omega) d (by simpa using hd)
    · rw [if_neg h]
      obtain ⟨i, hi, hj⟩ := ih x
      rcases i with _ | i'
      · refine ⟨0, by simpa using hi, ?_⟩
        intro j hlt d hd
        omega
      · have hx : f (pyMin f x cs) < f x := by
          refine hj 0 (by omega) x ?_
          simp
        refine ⟨i' + 2, by simpa using hi, ?_⟩
        intro j hlt d hd
        rcases j with _ | _ | j'
        · have hdx : d = x := by
            simp only [List.getElem?_cons_zero, Option.some.injEq] at hd
            exact hd.symm
          rw [hdx]
          exact hx
        · have hdc : d = c := by
            simp only [List.getElem?_cons_succ, List.getElem?_cons_zero,
              Option.some.injEq] at hd
            exact hd.symm
          rw [hdc]
          exact lt_of_lt_of_le hx (not_lt.mp h)
        · exact hj (j' + 1) (by omega) d (by simpa using hd)

/-! Lemmas about sumDist, chord_mean_distance and the octave normalizers. -/

theorem sumDist_map_add (c : List Pitch) (p d : ℤ) :
    sumDist (c.map (fun q => q + d)) p = sumDist c p + d * c.length := by
  induction c with
  | nil => simp [sumDist]
  | cons a as ih =>
    simp only [sumDist, List.map_cons, List.sum_cons, List.length_cons] at ih ⊢
    rw [ih]
    push_cast
    ring

theorem abs_mean_eq (c : List Pitch) (p : Pitch) :
    |chord_mean_distance c p| = ((|sumDist c p| : ℤ) : ℚ) / (c.length : ℚ) := by
  unfold chord_mean_distance
  rw [abs_div, abs_of_nonneg (by positivity : (0 : ℚ) ≤ (c.length : ℚ)), Int.cast_abs]

theorem twelve_lt_mean_iff (c : List Pitch) (p : Pitch) :
    12 < |chord_mean_distance c p| ↔ 12 * (c.length : ℤ) < |sumDist c p| := by
  rcases c with _ | ⟨a, as⟩
  · simp [chord_mean_distance, sumDist]
  · rw [abs_mean_eq]
    have hn : (0 : ℚ) < (((a :: as).length : ℕ) : ℚ) := by
      exact_mod_cast Nat.succ_pos as.length
    rw [lt_div_iff₀ hn]
    constructor
    · intro h; exact_mod_cast h
    · intro h; exact_mod_cast h

theorem mean_neg_iff (c : List Pitch) (p : Pitch) (h : 0 < c.length) :
    chord_mean_distance c p < 0 ↔ sumDist c p < 0 := by
  unfold chord_mean_distance
  have hn : (0 : ℚ) < ((c.length : ℕ) : ℚ) := by exact_mod_cast h
  rw [div_neg_iff]
  constructor
  · rintro (⟨h1, h2⟩ | ⟨h1, h2⟩)
    · linarith
    · exact_mod_cast h1
  · intro h1
    right
    exact ⟨by exact_mod_cast h1, hn⟩

theorem moveChordStep_length (c : List Pitch) (p : Pitch) :
    (moveChordStep c p).length = c.length := by
  unfold moveChordStep
  split <;> simp

theorem sumDist_moveChordStep (c : List Pitch) (p : Pitch)
    (h : 12 * (c.length : ℤ) < |sumDist c p|) :
    |sumDist (moveChordStep c p) p| = |sumDist c p| - 12 * c.length := by
  have hlen : 0 < c.length := by
    rcases Nat.eq_zero_or_pos c.length with h0 | h0
    · rw [List.length_eq_zero.mp h0] at h
      simp [sumDist] at h
    · exact h0
  have hlz : (0 : ℤ) ≤ 12 * (c.length : ℤ) := by positivity
  unfold moveChordStep
  by_cases hs : chord_mean_distance c p < 0
  · rw [if_pos hs, sumDist_map_add]
    have hneg : sumDist c p < 0 := (mean_neg_iff c p hlen).mp hs
    rw [abs_of_neg hneg] at h ⊢
    rw [abs_of_neg (by linarith : sumDist c p + 12 * (c.length : ℤ) < 0)]
    ring
  · rw [if_neg hs]
    have hpos : 0 ≤ sumDist c p := by
      by_contra hc
      exact hs ((mean_neg_iff c p hlen).mpr (by omega))
    rw [abs_of_nonneg hpos] at h ⊢
    have hm : (c.map (fun q => q - 12)) = c.map (fun q => q + (-12)) := by
      simp [sub_eq_add_neg]
    rw [hm, sumDist_map_add]
    rw [abs_of_nonneg (by linarith : (0 : ℤ) ≤ sumDist c p + (-12) * (c.length : ℤ))]
    ring

theorem moveChordFuel_length : ∀ (n : ℕ) (c : List Pitch) (p : Pitch),
    (moveChordFuel n c p).length = c.length := by
  intro n
  induction n with
  | zero => intro c p; rfl
  | succ m ih =>
    intro c p
    unfold moveChordFuel
    split
    · rw [ih, moveChordStep_length]
    · rfl

theorem moveChordFuel_shift : ∀ (n : ℕ) (c : List Pitch) (p : Pitch),
    ∃ k : ℤ, moveChordFuel n c p = c.map (fun q => q + 12 * k) := by
  intro n
  induction n with
  | zero =>
    intro c p
    exact ⟨0, by simp [moveChordFuel]⟩
  | succ m ih =>
    intro c p
    unfold moveChordFuel
    split
    · obtain ⟨k, hk⟩ := ih (moveChordStep c p) p
      by_cases hs : chord_mean_distance c p < 0
      · refine ⟨k + 1, ?_⟩
        rw [hk]
        unfold moveChordStep
        rw [if_pos hs, List.map_map]
        congr 1
        funext q
        simp only [Function.comp_apply]
        ring
      · refine ⟨k - 1, ?_⟩
        rw [hk]
        unfold moveChordStep
        rw [if_neg hs, List.map_map]
        congr 1
        funext q
        simp only [Function.comp_apply]
        ring
    · exact ⟨0, by simp⟩

theorem moveChordFuel_band : ∀ (n : ℕ) (c : List Pitch) (p : Pitch),
    |sumDist c p| ≤ 12 * c.length + 12 * n →
    ¬ 12 < |chord_mean_distance (moveChordFuel n c p) p| := by
  intro n
  induction n with
  | zero =>
    intro c p hb
    have h0 : moveChordFuel 0 c p = c := rfl
    rw [h0, twelve_lt_mean_iff]
    push_cast at hb
    intro hlt
    linarith
  | succ m ih =>
    intro c p hb
    unfold moveChordFuel
    split
    · rename_i hcond
      apply ih
      have hc2 := (twelve_lt_mean_iff c p).mp hcond
      have hlen : 0 < c.length := by
        rcases Nat.eq_zero_or_pos c.length with h0 | h0
        · rw [List.length_eq_zero.mp h0] at hc2
          simp [sumDist] at hc2
        · exact h0
      have hl1 : (1 : ℤ) ≤ (c.length : ℤ) := by exact_mod_cast hlen
      have hstep := sumDist_moveChordStep c p hc2
      rw [moveChordStep_length, hstep]
      push_cast at hb ⊢
      linarith
    · rename_i hcond
      exact hcond

theorem moveChordFuel_fix (n : ℕ) (c : List Pitch) (p : Pitch)
    (h : ¬ 12 < |chord_mean_distance c p|) : moveChordFuel n c p = c := by
  cases n with
  | zero => rfl
  | succ m => unfold moveChordFuel; rw [if_neg h]

theorem move_chord_band (c : List Pitch) (p : Pitch) :
    |chord_mean_distance (move_chord c p) p| ≤ 12 := by
  refine not_lt.mp (moveChordFuel_band (sumDist c p).natAbs c p ?_)
  rw [Int.natCast_natAbs]
  have h1 := abs_nonneg (sumDist c p)
  have h2 : (0 : ℤ) ≤ 12 * (c.length : ℤ) := by positivity
  linarith

theorem move_chord_length (c : List Pitch) (p : Pitch) :
    (move_chord c p).length = c.length :=
  moveChordFuel_length _ _ _

theorem move_chord_shift (c : List Pitch) (p : Pitch) :
    ∃ k : ℤ, move_chord c p = c.map (fun q => q + 12 * k) :=
  moveChordFuel_shift _ _ _

theorem move_chord_idem (c : List Pitch) (p : Pitch) :
    move_chord (move_chord c p) p = move_chord c p :=
  moveChordFuel_fix _ _ _ (not_lt.mpr (move_chord_band c p))

theorem moveChordFuel_succ_eq (p : Pitch) : ∀ (n : ℕ) (c : List Pitch),
    (sumDist c p).natAbs ≤ n → moveChordFuel (n + 1) c p = moveChordFuel n c p := by
  intro n
  induction n with
  | zero =>
    intro c h
    have hs0 : sumDist c p = 0 := Int.natAbs_eq_zero.mp (Nat.le_zero.mp h)
    have hz : ¬ 12 < |chord_mean_distance c p| := by
      rw [twelve_lt_mean_iff, hs0]
      simp only [abs_zero]
      intro hlt
      omega
    rw [moveChordFuel_fix _ _ _ hz]
    rfl
  | succ m ih =>
    intro c h
    by_cases hc : 12 < |chord_mean_distance c p|
    · have hl : moveChordFuel (m + 1 + 1) c p = moveChordFuel (m + 1) (moveChordStep c p) p := by
        conv_lhs => unfold moveChordFuel
        rw [if_pos hc]
      have hr : moveChordFuel (m + 1) c p = moveChordFuel m (moveChordStep c p) p := by
        conv_lhs => unfold moveChordFuel
        rw [if_pos hc]
      rw [hl, hr]
      apply ih
      have hc2 := (twelve_lt_mean_iff c p).mp hc
      have hlen : 0 < c.length := by
        rcases Nat.eq_zero_or_pos c.length with h0 | h0
        · rw [List.length_eq_zero.mp h0] at hc2
          simp [sumDist] at hc2
        · exact h0
      have hstep := sumDist_moveChordStep c p hc2
      have e2 : ((sumDist c p).natAbs : ℤ) = |sumDist c p| := Int.natCast_natAbs _
      have e1 : ((sumDist (moveChordStep c p) p).natAbs : ℤ) =
          ((sumDist c p).natAbs : ℤ) - 12 * c.length := by
        rw [Int.natCast_natAbs, e2]
        exact hstep
      rw [← e2] at hc2
      omega
    · rw [moveChordFuel_fix _ _ _ hc, moveChordFuel_fix _ _ _ hc]

theorem moveChordFuel_stable (c : List Pitch) (p : Pitch) :
    ∀ (n : ℕ), (sumDist c p).natAbs ≤ n → moveChordFuel n c p = move_chord c p := by
  intro n
  induction n with
  | zero =>
    intro h
    unfold move_chord
    rw [show (sumDist c p).natAbs = 0 by omega]
  | succ m ih =>
    intro h
    rcases Nat.lt_or_ge m (sumDist c p).natAbs with hm | hm
    · have : (sumDist c p).natAbs = m + 1 := by omega
      rw [← this]
      rfl
    · rw [moveChordFuel_succ_eq p m c hm]
      exact ih hm

theorem movePitchFuel_band : ∀ (n : ℕ) (q r : Pitch),
    |q - r| ≤ 6 + 2 * n → ¬ 6 < |movePitchFuel n q r - r| := by
  intro n
  induction n with
  | zero =>
    intro q r h
    have h0 : movePitchFuel 0 q r = q := rfl
    rw [h0]
    push_cast at h
    intro hlt
    linarith
  | succ m ih =>
    intro q r h
    unfold movePitchFuel
    by_cases hc : 6 < |q - r|
    · rw [if_pos hc]
      push_cast at h
      by_cases hs : q - r < 0
      · rw [if_pos hs]
        apply ih
        rw [abs_of_neg hs] at h hc
        have he : q + 12 - r = (q - r) + 12 := by ring
        rw [he, abs_le]
        constructor
        · linarith
        · linarith
      · rw [if_neg hs]
        apply ih
        rw [abs_of_nonneg (not_lt.mp hs)] at h hc
        have he : q - 12 - r = (q - r) - 12 := by ring
        rw [he, abs_le]
        constructor
        · linarith
        · linarith
    · rw [if_neg hc]
      exact hc

theorem move_pitch_band (q r : Pitch) : |move_pitch q r - r| ≤ 6 := by
  refine not_lt.mp (movePitchFuel_band (q - r).natAbs q r ?_)
  rw [Int.natCast_natAbs]
  have h1 := abs_nonneg (q - r)
  linarith

theorem movePitchFuel_fix (n : ℕ) (q r : Pitch) (h : ¬ 6 < |q - r|) :
    movePitchFuel n q r = q := by
  cases n with
  | zero => rfl
  | succ m => unfold movePitchFuel; rw [if_neg h]

theorem move_pitch_idem (q r : Pitch) :
    move_pitch (move_pitch q r) r = move_pitch q r :=
  movePitchFuel_fix _ _ _ (not_lt.mpr (move_pitch_band q r))

theorem moveChordStep_decreases (c : List Pitch) (p : Pitch)
    (h : 12 < |chord_mean_distance c p|) :
    |chord_mean_distance (moveChordStep c p) p| < |chord_mean_distance c p| := by
  have hi := (twelve_lt_mean_iff c p).mp h
  have hlen : 0 < c.length := by
    rcases Nat.eq_zero_or_pos c.length with h0 | h0
    · rw [List.length_eq_zero.mp h0] at hi
      simp [sumDist] at hi
    · exact h0
  have hsum := sumDist_moveChordStep c p hi
  rw [abs_mean_eq, abs_mean_eq, moveChordStep_length]
  have hn : (0 : ℚ) < ((c.length : ℕ) : ℚ) := by exact_mod_cast hlen
  have hl1 : (1 : ℤ) ≤ (c.length : ℤ) := by exact_mod_cast hlen
  have hz : |sumDist (moveChordStep c p) p| < |sumDist c p| := by
    rw [hsum]
    linarith
  have hzq : ((|sumDist (moveChordStep c p) p| : ℤ) : ℚ) < ((|sumDist c p| : ℤ) : ℚ) := by
    exact_mod_cast hz
  exact div_lt_div_of_pos_right hzq hn

/-! Lemmas about the inversion enumerator. -/

theorem invStep_length (c : List Pitch) : (invStep c).length = c.length := by
  rcases c with _ | ⟨a, as⟩
  · rfl
  · unfold invStep
    rw [List.getLast?_eq_getLast_of_ne_nil (List.cons_ne_nil a as)]
    simp [List.length_dropLast]

theorem invStep_iterate_length (c : List Pitch) (k : ℕ) :
    (invStep^[k] c).length = c.length := by
  induction k with
  | zero => rfl
  | succ m ih => rw [Function.iterate_succ_apply', invStep_length, ih]

theorem allInversionsAux_length : ∀ (n : ℕ) (p : List Pitch),
    (allInversionsAux p n).length = n := by
  intro n
  induction n with
  | zero => intro p; rfl
  | succ m ih =>
    intro p
    simp only [allInversionsAux, List.length_cons, ih]

theorem allInversionsAux_getElem? : ∀ (n : ℕ) (p : List Pitch) (k : ℕ), k < n →
    (allInversionsAux p n)[k]? = some (invStep^[k + 1] p) := by
  intro n
  induction n with
  | zero => intro p k hk; omega
  | succ m ih =>
    intro p k hk
    rcases k with _ | k'
    · simp [allInversionsAux]
    · simp only [allInversionsAux, List.getElem?_cons_succ]
      rw [ih (invStep p) k' (by omega)]
      rfl

theorem all_inversions_length (c : List Pitch) :
    (all_inversions c).length = c.length :=
  allInversionsAux_length c.length c

theorem all_inversions_getElem? (c : List Pitch) (k : ℕ) (hk : k < c.length) :
    (all_inversions c)[k]? = some (invStep^[k + 1] c) :=
  allInversionsAux_getElem? c.length c k hk

theorem mem_allInversionsAux_length : ∀ (n : ℕ) (p : List Pitch) (l : List Pitch),
    l ∈ allInversionsAux p n → l.length = p.length := by
  intro n
  induction n with
  | zero => intro p l hl; simp [allInversionsAux] at hl
  | succ m ih =>
    intro p l hl
    simp only [allInversionsAux] at hl
    rcases List.mem_cons.mp hl with h1 | h1
    · rw [h1, invStep_length]
    · rw [ih (invStep p) l h1, invStep_length]

/-! Lemmas about the sorted heap model of the trimming loop. -/

theorem sortedCandidates_perm (l : List (ℤ × ℤ)) : List.Perm (sortedCandidates l) l :=
  List.perm_insertionSort keyLE l

theorem sortedCandidates_length (l : List (ℤ × ℤ)) :
    (sortedCandidates l).length = l.length :=
  (sortedCandidates_perm l).length_eq

theorem sortedCandidates_sorted (l : List (ℤ × ℤ)) :
    List.Sorted keyLE (sortedCandidates l) :=
  List.sorted_insertionSort keyLE l

theorem trimCandidates_length (l : List (ℤ × ℤ)) (mn : ℤ) :
    (trimCandidates l mn).length = min l.length mn.toNat := by
  unfold trimCandidates
  rw [List.length_drop, sortedCandidates_length]
  omega

theorem discarded_append_trim (l : List (ℤ × ℤ)) (mn : ℤ) :
    discardedCandidates l mn ++ trimCandidates l mn = sortedCandidates l :=
  List.take_append_drop _ _

theorem discarded_keyLE_trim (l : List (ℤ × ℤ)) (mn : ℤ) :
    ∀ d ∈ discardedCandidates l mn, ∀ r ∈ trimCandidates l mn, keyLE d r := by
  have hs := sortedCandidates_sorted l
  rw [← discarded_append_trim l mn] at hs
  exact fun d hd r hr => (List.pairwise_append.mp hs).2.2 d hd r hr

theorem discarded_sorted (l : List (ℤ × ℤ)) (mn : ℤ) :
    List.Pairwise keyLE (discardedCandidates l mn) :=
  List.Pairwise.sublist (List.take_sublist _ _) (sortedCandidates_sorted l)

/-! Lemmas about the voicing pipeline of generate_closed_chord. -/

theorem candidates_length (ct : ChordType) (root : Pitch) (ir : Bool) :
    (ct.candidates root ir).length =
      2 + ct.harmonies.length + (if ir then 1 else 0) +
        (if ct.upper_quality.isSome then 1 else 0) := by
  unfold ChordType.candidates
  rcases hu : ct.upper_quality with _ | u <;> cases ir <;> simp [hu] <;> omega

theorem two_le_candidates_length (ct : ChordType) (root : Pitch) (ir : Bool) :
    2 ≤ (ct.candidates root ir).length := by
  rw [candidates_length]
  split_ifs <;> omega

theorem closedPosition_length (c : List Pitch) :
    (closedPosition c).length = c.length := by
  rcases c with _ | ⟨a, as⟩
  · rfl
  · unfold closedPosition
    rw [(List.perm_insertionSort _ _).length_eq, List.length_map]

theorem chord_base_length (ct : ChordType) (root : Pitch) (mn : ℤ) (ir : Bool) :
    (ct.chord_base root mn ir).length = min (ct.candidates root ir).length mn.toNat := by
  unfold ChordType.chord_base
  rw [(List.perm_insertionSort _ _).length_eq, List.length_map, trimCandidates_length]

theorem inversionsOf_length (ct : ChordType) (root anchor : Pitch) (mn : ℤ) (ir : Bool) :
    (ct.inversionsOf root anchor mn ir).length =
      min (ct.candidates root ir).length mn.toNat := by
  unfold ChordType.inversionsOf
  rw [List.length_map, all_inversions_length, closedPosition_length, move_chord_length,
    chord_base_length]

theorem mem_inversionsOf_length (ct : ChordType) (root anchor : Pitch) (mn : ℤ)
    (ir : Bool) (l : List Pitch) (hl : l ∈ ct.inversionsOf root anchor mn ir) :
    l.length = min (ct.candidates root ir).length mn.toNat := by
  unfold ChordType.inversionsOf at hl
  obtain ⟨c, hc, rfl⟩ := List.mem_map.mp hl
  rw [move_chord_length]
  have h1 := mem_allInversionsAux_length _ _ c hc
  rw [h1, closedPosition_length, move_chord_length, chord_base_length]

theorem generate_ok (ct : ChordType) (root anchor : Pitch) (mn : ℤ)
    (bass : Option Pitch) (ir : Bool) (h2 : 2 ≤ mn) :
    ∃ l, ct.generate_closed_chord root anchor mn bass ir = Except.ok l ∧
      l.length = min (ct.candidates root ir).length mn.toNat +
        (if bass.isSome then 1 else 0) := by
  have hpos : 0 < (ct.inversionsOf root anchor mn ir).length := by
    rw [inversionsOf_length]
    have := two_le_candidates_length ct root ir
    omega
  rcases hinv : ct.inversionsOf root anchor mn ir with _ | ⟨x, xs⟩
  · rw [hinv] at hpos
    simp at hpos
  · have hbest : pyMin (fun c => chord_mad c anchor) x xs ∈
        ct.inversionsOf root anchor mn ir := by
      rw [hinv]
      exact pyMin_mem _ x xs
    have hblen := mem_inversionsOf_length ct root anchor mn ir _ hbest
    unfold ChordType.generate_closed_chord
    rw [if_neg (by omega), hinv]
    rcases bass with _ | b
    · exact ⟨_, rfl, by simpa using hblen⟩
    · refine ⟨_, rfl, ?_⟩
      rw [(List.perm_insertionSort _ _).length_eq]
      simp [hblen]

theorem generate_best (ct : ChordType) (root anchor : Pitch) (mn : ℤ) (ir : Bool)
    (h2 : 2 ≤ mn) :
    ∃ x xs, ct.inversionsOf root anchor mn ir = x :: xs ∧
      ct.generate_closed_chord root anchor mn none ir =
        Except.ok (pyMin (fun c => chord_mad c anchor) x xs) := by
  have hpos : 0 < (ct.inversionsOf root anchor mn ir).length := by
    rw [inversionsOf_length]
    have := two_le_candidates_length ct root ir
    omega
  rcases hinv : ct.inversionsOf root anchor mn ir with _ | ⟨x, xs⟩
  · rw [hinv] at hpos
    simp at hpos
  · refine ⟨x, xs, rfl, ?_⟩
    unfold ChordType.generate_closed_chord
    rw [if_neg (by omega), hinv]

/-! Helper lemmas for evaluating the pipeline at concrete inputs (the rational
division inside chord_mad and chord_mean_distance is bridged to decidable
integer comparisons). -/

theorem pyMin_nil {α : Type} (f : α → ℚ) (x : α) : pyMin f x [] = x := rfl

theorem move_chord_eq_self (c : List Pitch) (p : Pitch)
    (h : ¬ 12 * (c.length : ℤ) < |sumDist c p|) : move_chord c p = c :=
  moveChordFuel_fix _ _ _ (by rw [twelve_lt_mean_iff]; exact h)

theorem chord_mad_lt_iff (c d : List Pitch) (p : Pitch) (h : d.length = c.length)
    (hpos : 0 < c.length) :
    chord_mad c p < chord_mad d p ↔
      (c.map (fun q => |q - p|)).sum < (d.map (fun q => |q - p|)).sum := by
  unfold chord_mad
  rw [h]
  have hn : (0 : ℚ) < ((c.length : ℕ) : ℚ) := by exact_mod_cast hpos
  rw [div_lt_div_iff_of_pos_right hn]
  constructor
  · intro hh
    exact_mod_cast hh
  · intro hh
    exact_mod_cast hh

theorem major_inversions_three :
    MAJOR.inversionsOf 60 60 3 true = [[55, 60, 64], [52, 55, 60], [48, 52, 55]] := by
  unfold ChordType.inversionsOf
  rw [show MAJOR.chord_base 60 3 true = [60, 64, 67] from by decide]
  rw [move_chord_eq_self _ _ (by decide)]
  rw [show closedPosition [60, 64, 67] = [60, 64, 67] from by decide]
  rw [show all_inversions [60, 64, 67] = [[55, 60, 64], [52, 55, 60], [48, 52, 55]]
    from by decide]
  simp only [List.map_cons, List.map_nil]
  rw [move_chord_eq_self _ _ (by decide), move_chord_eq_self _ _ (by decide),
    move_chord_eq_self _ _ (by decide)]

theorem major_inversions_five :
    MAJOR.inversionsOf 60 60 5 true = [[55, 60, 64], [52, 55, 60], [48, 52, 55]] := by
  unfold ChordType.inversionsOf
  rw [show MAJOR.chord_base 60 5 true = [60, 64, 67] from by decide]
  rw [move_chord_eq_self _ _ (by decide)]
  rw [show closedPosition [60, 64, 67] = [60, 64, 67] from by decide]
  rw [show all_inversions [60, 64, 67] = [[55, 60, 64], [52, 55, 60], [48, 52, 55]]
    from by decide]
  simp only [List.map_cons, List.map_nil]
  rw [move_chord_eq_self _ _ (by decide), move_chord_eq_self _ _ (by decide),
    move_chord_eq_self _ _ (by decide)]

theorem major_best :
    pyMin (fun c => chord_mad c 60) [55, 60, 64] [[52, 55, 60], [48, 52, 55]] =
      [55, 60, 64] := by
  have hq1 : ¬ chord_mad [52, 55, 60] 60 < chord_mad [55, 60, 64] 60 := by
    rw [chord_mad_lt_iff _ _ _ (by decide) (by decide)]
    decide
  have hq2 : ¬ chord_mad [48, 52, 55] 60 < chord_mad [55, 60, 64] 60 := by
    rw [chord_mad_lt_iff _ _ _ (by decide) (by decide)]
    decide
  simp only [pyMin_cons, pyMin_nil]
  rw [if_neg hq1, if_neg hq2]

/-! Claim theorems. -/

/-- C1, counterexample: the claim says every valid call returns exactly
max_notes pitches, but a plain major triad only has three candidate tones
(third, fifth, root), so generate_closed_chord with max_notes = 5 returns a
chord of 3 pitches, not 5. -/
theorem C1_counterexample :
    MAJOR.generate_closed_chord 60 60 5 none true = Except.ok [55, 60, 64] ∧
      ([55, 60, 64] : List Pitch).length ≠ 5 := by
  constructor
  · unfold ChordType.generate_closed_chord
    rw [if_neg (by decide), major_inversions_five]
    change Except.ok (pyMin (fun c => chord_mad c 60) [55, 60, 64]
      [[52, 55, 60], [48, 52, 55]]) = Except.ok [55, 60, 64]
    rw [major_best]
  · decide

/-- C1, amended: for every call with max_notes >= 2 the returned chord contains
exactly min (number of candidate tones) max_notes pitches, plus one additional
pitch when a bass_note is supplied. -/
theorem C1_length (ct : ChordType) (root anchor : Pitch) (mn : ℤ)
    (bass : Option Pitch) (ir : Bool) (h2 : 2 ≤ mn) :
    ∃ l, ct.generate_closed_chord root anchor mn bass ir = Except.ok l ∧
      l.length = min (ct.candidates root ir).length mn.toNat +
        (if bass.isSome then 1 else 0) :=
  generate_ok ct root anchor mn bass ir h2

/-- C1, witness: the amended length law evaluated for a major chord with
max_notes = 5 and a bass note. -/
theorem C1_length_witness :
    (2 : ℤ) ≤ 5 ∧
      ∃ l, MAJOR.generate_closed_chord 60 60 5 (some 62) true = Except.ok l ∧
        l.length = min (MAJOR.candidates 60 true).length (5 : ℤ).toNat +
          (if (some (62 : ℤ)).isSome then 1 else 0) :=
  ⟨by decide, C1_length MAJOR 60 60 5 (some 62) true (by decide)⟩

/-- C2, counterexample: for quality = major, root = C4 (60), anchor = C4,
max_notes = 3, include_root = true the code returns the chord [G3, C4, E4] =
[55, 60, 64]; G4 (67) is not among its pitches, so the pitch set is not
exactly set C4, E4, G4. -/
theorem C2_counterexample :
    MAJOR.generate_closed_chord 60 60 3 none true = Except.ok [55, 60, 64] ∧
      (67 : Pitch) ∉ ([55, 60, 64] : List Pitch) := by
  constructor
  · unfold ChordType.generate_closed_chord
    rw [if_neg (by decide), major_inversions_three]
    change Except.ok (pyMin (fun c => chord_mad c 60) [55, 60, 64]
      [[52, 55, 60], [48, 52, 55]]) = Except.ok [55, 60, 64]
    rw [major_best]
  · decide

/-- C2, amended: for quality = major, root = "C4", anchor = "C4", max_notes = 3,
include_root = true the result's pitch set is exactly set G3, C4, E4
(MIDI 55, 60, 64): the same pitch classes C, E, G, but with the fifth placed an
octave below, because the first rotation produced by all_inversions (not the
original closed chord) minimizes the mean absolute deviation from the anchor. -/
theorem C2_major_voicing :
    MAJOR.generate_closed_chord 60 60 3 none true = Except.ok [55, 60, 64] := by
  unfold ChordType.generate_closed_chord
  rw [if_neg (by decide), major_inversions_three]
  change Except.ok (pyMin (fun c => chord_mad c 60) [55, 60, 64]
    [[52, 55, 60], [48, 52, 55]]) = Except.ok [55, 60, 64]
  rw [major_best]

/-- C3, counterexample: on the chord [60, 64, 67] the first output of
all_inversions is [55, 60, 64], not the original chord, so output 0 is not the
original chord itself. -/
theorem C3_counterexample :
    all_inversions [60, 64, 67] = [[55, 60, 64], [52, 55, 60], [48, 52, 55]] ∧
      (all_inversions [60, 64, 67])[0]? ≠ some [60, 64, 67] := by
  constructor
  · rfl
  · decide

/-- C3, amended: for every chord of N pitches, all_inversions returns exactly N
chords, and output k (0-indexed) is invStep applied k+1 times to the original
chord, where invStep moves the current highest pitch down one octave and
prepends it as the new lowest pitch; in particular the original chord itself is
not among the outputs. -/
theorem C3_inversions (c : List Pitch) :
    (all_inversions c).length = c.length ∧
      ∀ k : ℕ, k < c.length → (all_inversions c)[k]? = some (invStep^[k + 1] c) :=
  ⟨all_inversions_length c, fun k hk => all_inversions_getElem? c k hk⟩

/-- C3, witness: the rotation law evaluated for the chord [60, 64, 67] at
output index 1. -/
theorem C3_inversions_witness :
    (all_inversions [60, 64, 67]).length = ([60, 64, 67] : List Pitch).length ∧
      (all_inversions [60, 64, 67])[1]? = some (invStep^[2] [60, 64, 67]) :=
  ⟨(C3_inversions [60, 64, 67]).1, (C3_inversions [60, 64, 67]).2 1 (by decide)⟩

/-- C4: the chord returned by generate_closed_chord (no bass) is the
anchor-normalized inversion whose mean absolute deviation from the anchor is
less than or equal to that of every other normalized inversion, and it is the
first inversion in enumeration order attaining that minimum (every strictly
earlier inversion has a strictly larger deviation). -/
theorem C4_best_fit (ct : ChordType) (root anchor : Pitch) (mn : ℤ) (ir : Bool)
    (h2 : 2 ≤ mn) :
    ∃ best, ct.generate_closed_chord root anchor mn none ir = Except.ok best ∧
      (∀ c ∈ ct.inversionsOf root anchor mn ir,
        chord_mad best anchor ≤ chord_mad c anchor) ∧
      ∃ i : ℕ, (ct.inversionsOf root anchor mn ir)[i]? = some best ∧
        ∀ j : ℕ, j < i → ∀ c, (ct.inversionsOf root anchor mn ir)[j]? = some c →
          chord_mad best anchor < chord_mad c anchor := by
  obtain ⟨x, xs, hinv, hgen⟩ := generate_best ct root anchor mn ir h2
  refine ⟨pyMin (fun c => chord_mad c anchor) x xs, hgen, ?_, ?_⟩
  · rw [hinv]
    exact pyMin_le _ x xs
  · rw [hinv]
    exact pyMin_first _ x xs

/-- C4, witness: the best-fit law evaluated for a major chord at max_notes 3. -/
theorem C4_best_fit_witness :
    ∃ best, MAJOR.generate_closed_chord 60 60 3 none true = Except.ok best ∧
      (∀ c ∈ MAJOR.inversionsOf 60 60 3 true,
        chord_mad best 60 ≤ chord_mad c 60) ∧
      ∃ i : ℕ, (MAJOR.inversionsOf 60 60 3 true)[i]? = some best ∧
        ∀ j : ℕ, j < i → ∀ c, (MAJOR.inversionsOf 60 60 3 true)[j]? = some c →
          chord_mad best 60 < chord_mad c 60 :=
  C4_best_fit MAJOR 60 60 3 true (by decide)

/-- C5: generate_closed_chord fails with the insufficient-chord-size error
exactly when max_notes < 2, and succeeds (returns ok) whenever max_notes >= 2,
for every chord quality and resolved pitch arguments. -/
theorem C5_size_guard (ct : ChordType) (root anchor : Pitch) (mn : ℤ)
    (bass : Option Pitch) (ir : Bool) :
    (mn < 2 → ct.generate_closed_chord root anchor mn bass ir =
      Except.error "Not really a chord with only one or no notes.") ∧
    (2 ≤ mn → ∃ l, ct.generate_closed_chord root anchor mn bass ir = Except.ok l) := by
  constructor
  · intro h
    unfold ChordType.generate_closed_chord
    rw [if_pos h]
  · intro h
    obtain ⟨l, hl, _⟩ := generate_ok ct root anchor mn bass ir h
    exact ⟨l, hl⟩

/-- C5, witness: max_notes = 1 fails with the size error and max_notes = 2
succeeds, on a major chord. -/
theorem C5_size_guard_witness :
    MAJOR.generate_closed_chord 60 60 1 none true =
      Except.error "Not really a chord with only one or no notes." ∧
    ∃ l, MAJOR.generate_closed_chord 60 60 2 none true = Except.ok l :=
  ⟨(C5_size_guard MAJOR 60 60 1 none true).1 (by decide),
   (C5_size_guard MAJOR 60 60 2 none true).2 (by decide)⟩

/-- C6: the candidate tones carry importance weights fifth = 1, root = 3 (when
include_root), each harmonic extension = 7, third = 9 and upper-quality tone =
9, these are the only weights occurring, and the trimming loop discards
candidates whose weight is less than or equal to the weight of every surviving
candidate (lowest weight removed first). -/
theorem C6_weights (ct : ChordType) (root : Pitch) (ir : Bool) (mn : ℤ) :
    ((1, root + ct.fifth_quality.interval) ∈ ct.candidates root ir) ∧
    ((9, root + ct.third_quality.interval) ∈ ct.candidates root ir) ∧
    (ir = true → ((3 : ℤ), root) ∈ ct.candidates root ir) ∧
    (∀ h ∈ ct.harmonies, ((7 : ℤ), root + h.interval) ∈ ct.candidates root ir) ∧
    (∀ u, ct.upper_quality = some u →
      ((9 : ℤ), root + u.interval) ∈ ct.candidates root ir) ∧
    (∀ c ∈ ct.candidates root ir, c.1 = 1 ∨ c.1 = 3 ∨ c.1 = 7 ∨ c.1 = 9) ∧
    (∀ d ∈ discardedCandidates (ct.candidates root ir) mn,
      ∀ r ∈ trimCandidates (ct.candidates root ir) mn, d.1 ≤ r.1) := by
  refine ⟨?_, ?_, ?_, ?_, ?_, ?_, ?_⟩
  · unfold ChordType.candidates
    simp
  · unfold ChordType.candidates
    simp
  · intro hir
    unfold ChordType.candidates
    simp [hir]
  · intro h hh
    unfold ChordType.candidates
    simp only [List.mem_append, List.mem_singleton, List.mem_map]
    exact Or.inl (Or.inl (Or.inl (Or.inr ⟨h, hh, rfl⟩)))
  · intro u hu
    unfold ChordType.candidates
    simp [hu]
  · intro c hc
    unfold ChordType.candidates at hc
    simp only [List.mem_append, List.mem_singleton, List.mem_map] at hc
    rcases hc with ((((h1 | ⟨a, ha, h2⟩) | h3) | h4) | h5)
    · rw [h1]
      tauto
    · rw [← h2]
      tauto
    · rw [h3]
      tauto
    · rcases ir with _ | _
      · simp at h4
      · simp at h4
        rw [h4]
        tauto
    · rcases hu : ct.upper_quality with _ | u
      · rw [hu] at h5
        simp at h5
      · rw [hu] at h5
        simp at h5
        rw [h5]
        tauto
  · intro d hd r hr
    have hk := discarded_keyLE_trim _ mn d hd r hr
    unfold keyLE at hk
    omega

/-- C6, witness: the fifth, third and root membership facts evaluated for the
major chord rooted at C4. -/
theorem C6_weights_witness :
    ((1, (67 : ℤ)) ∈ MAJOR.candidates 60 true) ∧
    ((9, (64 : ℤ)) ∈ MAJOR.candidates 60 true) ∧
    ((3, (60 : ℤ)) ∈ MAJOR.candidates 60 true) := by
  have h := C6_weights MAJOR 60 true 2
  refine ⟨?_, ?_, ?_⟩
  · have h1 := h.1
    simpa [MAJOR, FifthQuality.interval] using h1
  · have h2 := h.2.1
    simpa [MAJOR, ThirdQuality.interval] using h2
  · exact h.2.2.1 rfl

/-- C7: move_chord terminates with the whole chord transposed by a multiple of
12 semitones, the result's signed mean pitch-distance to the anchor is at most
12 in absolute value, and whenever the loop condition holds one loop step
strictly reduces the magnitude of the mean distance. -/
theorem C7_move_chord (c : List Pitch) (p : Pitch) (_h : 0 < c.length) :
    (∃ k : ℤ, move_chord c p = c.map (fun q => q + 12 * k)) ∧
      |chord_mean_distance (move_chord c p) p| ≤ 12 ∧
      (12 < |chord_mean_distance c p| →
        |chord_mean_distance (moveChordStep c p) p| < |chord_mean_distance c p|) :=
  ⟨move_chord_shift c p, move_chord_band c p, moveChordStep_decreases c p⟩

/-- C7, witness: the move_chord law evaluated on the single-pitch chord [85]
against anchor 60 (two loop iterations, result [61]). -/
theorem C7_move_chord_witness :
    0 < ([85] : List Pitch).length ∧
      ((∃ k : ℤ, move_chord [85] 60 = ([85] : List Pitch).map (fun q => q + 12 * k)) ∧
        |chord_mean_distance (move_chord [85] 60) 60| ≤ 12 ∧
        (12 < |chord_mean_distance [85] 60| →
          |chord_mean_distance (moveChordStep [85] 60) 60| <
            |chord_mean_distance [85] 60|)) :=
  ⟨by decide, C7_move_chord [85] 60 (by decide)⟩

/-- C8: octave normalization is idempotent, both at chord level (move_chord)
and at pitch level (move_pitch). -/
theorem C8_idempotent (c : List Pitch) (p q r : Pitch) (_h : 0 < c.length) :
    move_chord (move_chord c p) p = move_chord c p ∧
      move_pitch (move_pitch q r) r = move_pitch q r :=
  ⟨move_chord_idem c p, move_pitch_idem q r⟩

/-- C8, witness: idempotence evaluated on the chord [40, 80] and the pitch 85
against reference 60. -/
theorem C8_idempotent_witness :
    0 < ([40, 80] : List Pitch).length ∧
      (move_chord (move_chord [40, 80] 60) 60 = move_chord [40, 80] 60 ∧
        move_pitch (move_pitch 85 60) 60 = move_pitch 85 60) :=
  ⟨by decide, C8_idempotent [40, 80] 60 85 60 (by decide)⟩

/-- C9: when the candidate count is below max_notes (and the candidates have
pairwise distinct pitch classes), the trimming loop discards nothing and the
main voicing has exactly the candidate count of pitches, which is fewer than
max_notes. -/
theorem C9_no_trim (ct : ChordType) (root anchor : Pitch) (mn : ℤ) (ir : Bool)
    (h2 : 2 ≤ mn)
    (hlt : ((ct.candidates root ir).length : ℤ) < mn)
    (_hp : ((ct.candidates root ir).map Prod.snd).Pairwise
      (fun p q => (p - q) % 12 ≠ 0)) :
    trimCandidates (ct.candidates root ir) mn = sortedCandidates (ct.candidates root ir) ∧
      ∃ l, ct.generate_closed_chord root anchor mn none ir = Except.ok l ∧
        l.length = (ct.candidates root ir).length ∧ ((l.length : ℤ) < mn) := by
  have hdrop : (ct.candidates root ir).length - mn.toNat = 0 := by omega
  constructor
  · unfold trimCandidates
    rw [hdrop, List.drop_zero]
  · obtain ⟨l, hl, hlen⟩ := generate_ok ct root anchor mn none ir h2
    refine ⟨l, hl, ?_, ?_⟩
    · rw [hlen]
      simp only [Option.isSome_none, Bool.false_eq_true, if_false, add_zero]
      omega
    · rw [hlen]
      simp only [Option.isSome_none, Bool.false_eq_true, if_false, add_zero]
      push_cast
      omega

/-- C9, witness: the plain major triad with the default max_notes = 5 yields a
3-pitch chord. -/
theorem C9_no_trim_witness :
    (2 : ℤ) ≤ 5 ∧ ((MAJOR.candidates 60 true).length : ℤ) < 5 ∧
      (trimCandidates (MAJOR.candidates 60 true) 5 =
          sortedCandidates (MAJOR.candidates 60 true) ∧
        ∃ l, MAJOR.generate_closed_chord 60 60 5 none true = Except.ok l ∧
          l.length = (MAJOR.candidates 60 true).length ∧ ((l.length : ℤ) < 5)) :=
  ⟨by decide, by decide, C9_no_trim MAJOR 60 60 5 true (by decide) (by decide) (by decide)⟩

/-- C10: the trimming heap orders (weight, pitch) pairs lexicographically: the
sequence of discarded candidates is ascending in that order (so equal-weight
ties are discarded in ascending pitch order), and every discarded candidate is
lexicographically at most every surviving one: lower weight, or equal weight
and lower-or-equal pitch value. -/
theorem C10_tie_break (ct : ChordType) (root : Pitch) (ir : Bool) (mn : ℤ) :
    List.Pairwise keyLE (discardedCandidates (ct.candidates root ir) mn) ∧
      ∀ d ∈ discardedCandidates (ct.candidates root ir) mn,
        ∀ r ∈ trimCandidates (ct.candidates root ir) mn,
          d.1 < r.1 ∨ (d.1 = r.1 ∧ d.2 ≤ r.2) := by
  refine ⟨discarded_sorted _ _, ?_⟩
  intro d hd r hr
  have hk := discarded_keyLE_trim _ mn d hd r hr
  unfold keyLE at hk
  exact hk

/-- C10, witness: for a major-seventh chord with added major ninth and major
thirteenth (root C4, include_root = false) trimmed to 2 notes, the two
harmonies tie at weight 7 and the lower pitch 74 is discarded before 81. -/
theorem C10_tie_break_witness : keyLE (7, 74) (7, 81) := by
  have h := (C10_tie_break (MAJOR.add_maj7.add_maj9.add_maj13) 60 false 2).1
  have hd : discardedCandidates ((MAJOR.add_maj7.add_maj9.add_maj13).candidates 60 false) 2 =
      [(1, 67), (7, 74), (7, 81)] := by decide
  rw [hd] at h
  exact (List.pairwise_cons.mp (List.pairwise_cons.mp h).2).1 (7, 81) (by simp)

end Pyband
